import Mathlib

/-!
Shallow embedding of the liderboard backend core: the ranking query in
`src/backend/src/routes/leaderboard.ts`, the deposit upsert in
`src/backend/src/routes/deposit.ts`, the registration flow in
`src/backend/src/routes/user.ts`, the category classifier in
`src/backend/src/services/exchangeRate.ts`, and the cache layer in
`src/backend/src/services/cache.ts` together with the schema constraints of
the SQL migration (users / deposit_updates tables).

Monetary values (SQL DECIMAL / numeric) are modelled as exact rationals;
calendar dates are the ISO `YYYY-MM-DD` strings the code manipulates,
compared lexicographically exactly as JavaScript string comparison does;
timestamps (`registered_at`) are naturals.
-/

namespace Liderboard

/-- Calendar dates are ISO `YYYY-MM-DD` strings; the source compares them with
JavaScript string `>` / SQL `<=`, i.e. lexicographically, which for
equal-length digit strings coincides with chronological order. -/
abbrev DateStr := String

/-- A row of the `users` table (migration `CREATE TABLE users`): internal
surrogate id, external telegram id, profile fields, market, instrument tags,
initial deposit, currency, the RUB-converted deposit, the category computed at
registration, and the registration timestamp. -/
structure User where
  id : Nat
  telegramId : Nat
  displayName : String
  photoUrl : Option String
  market : String
  instruments : List String
  currency : String
  initialDeposit : ℚ
  initialDepositRub : ℚ
  depositCategory : Option Nat
  registeredAt : Nat
deriving Repr, DecidableEq

/-- A row of the `deposit_updates` table: one participant's reported deposit
value for one calendar date. -/
structure DepositRow where
  userId : Nat
  depositDate : DateStr
  depositValue : ℚ
deriving Repr, DecidableEq

/-- The database state the routes read and write. -/
structure DB where
  users : List User
  deposits : List DepositRow
deriving Repr, DecidableEq

/-! ### Category classifier (`src/backend/src/services/exchangeRate.ts`) -/

/-- `depositCategory` from `exchangeRate.ts`:
category 1 below 70 000 ₽, category 2 from 70 000 up to but excluding
250 000 ₽, category 3 at or above 250 000 ₽. -/
def depositCategory (initialDepositRub : ℚ) : Nat :=
  if initialDepositRub < 70000 then 1
  else if initialDepositRub < 250000 then 2
  else 3

/-- `toRub` from `exchangeRate.ts`: RUB amounts pass through unchanged, any
other currency is converted with the supplied USD/RUB rate (the rate-lookup
chain is an external collaborator; its resulting rate is a parameter here). -/
def toRub (amount : ℚ) (currency : String) (usdRubRate : ℚ) : ℚ :=
  if currency = "RUB" then amount else amount * usdRubRate

/-- The classifier the spec calls `classify(amount, currencyCode)`: convert to
RUB, then bucket — the composition used at registration
(`user.ts`: `toRub` then `depositCategory`). -/
def classify (amount : ℚ) (currency : String) (usdRubRate : ℚ) : Nat :=
  depositCategory (toRub amount currency usdRubRate)

/-- The three category buckets of `depositCategory`, characterised. -/
theorem depositCategory_spec (x : ℚ) :
    (depositCategory x = 1 ↔ x < 70000) ∧
    (depositCategory x = 2 ↔ 70000 ≤ x ∧ x < 250000) ∧
    (depositCategory x = 3 ↔ 250000 ≤ x) := by
  by_cases h1 : x < 70000
  · have e : depositCategory x = 1 := by simp [depositCategory, h1]
    rw [e]
    exact ⟨⟨fun _ => h1, fun _ => rfl⟩,
      ⟨fun h => by norm_num at h, fun h => absurd h1 (not_lt.mpr h.1)⟩,
      ⟨fun h => by norm_num at h, fun h3 => absurd h1 (not_lt.mpr (by linarith))⟩⟩
  · by_cases h2 : x < 250000
    · have e : depositCategory x = 2 := by simp [depositCategory, h1, h2]
      rw [e]
      exact ⟨⟨fun h => by norm_num at h, fun h => absurd h h1⟩,
        ⟨fun _ => ⟨not_lt.mp h1, h2⟩, fun _ => rfl⟩,
        ⟨fun h => by norm_num at h, fun h3 => absurd h2 (not_lt.mpr h3)⟩⟩
    · have e : depositCategory x = 3 := by simp [depositCategory, h1, h2]
      rw [e]
      exact ⟨⟨fun h => by norm_num at h, fun h => absurd h h1⟩,
        ⟨fun h => by norm_num at h, fun h => absurd h.2 h2⟩,
        ⟨fun _ => not_lt.mp h2, fun _ => rfl⟩⟩

/-- Claim C8: for every amount already in RUB the classifier returns 1 iff the
amount is strictly below 70 000, returns 2 iff it is at least 70 000 and
strictly below 250 000, returns 3 iff it is at or above 250 000; moreover
`classify 100000 RUB = 2`, and exactly one of the three categories holds for
every input. -/
theorem classify_rub_thresholds (a usdRubRate : ℚ) :
    (classify a "RUB" usdRubRate = 1 ↔ a < 70000) ∧
    (classify a "RUB" usdRubRate = 2 ↔ 70000 ≤ a ∧ a < 250000) ∧
    (classify a "RUB" usdRubRate = 3 ↔ 250000 ≤ a) ∧
    classify (100000 : ℚ) "RUB" usdRubRate = 2 ∧
    (classify a "RUB" usdRubRate = 1 ∧ classify a "RUB" usdRubRate ≠ 2 ∧
        classify a "RUB" usdRubRate ≠ 3 ∨
      classify a "RUB" usdRubRate = 2 ∧ classify a "RUB" usdRubRate ≠ 1 ∧
        classify a "RUB" usdRubRate ≠ 3 ∨
      classify a "RUB" usdRubRate = 3 ∧ classify a "RUB" usdRubRate ≠ 1 ∧
        classify a "RUB" usdRubRate ≠ 2) := by
  have hc : ∀ x : ℚ, classify x "RUB" usdRubRate = depositCategory x := fun x => by
    simp [classify, toRub]
  simp only [hc]
  obtain ⟨i1, i2, i3⟩ := depositCategory_spec a
  refine ⟨i1, i2, i3, by norm_num [depositCategory], ?_⟩
  by_cases h1 : a < 70000
  · refine Or.inl ⟨i1.mpr h1, ?_, ?_⟩ <;> intro h
    · exact absurd (i2.mp h).1 (not_le.mpr h1)
    · exact absurd (i3.mp h) (not_le.mpr (by linarith))
  · by_cases h2 : a < 250000
    · refine Or.inr (Or.inl ⟨i2.mpr ⟨not_lt.mp h1, h2⟩, ?_, ?_⟩) <;> intro h
      · exact absurd (i1.mp h) h1
      · exact absurd (i3.mp h) (not_le.mpr h2)
    · refine Or.inr (Or.inr ⟨i3.mpr (not_lt.mp h2), ?_, ?_⟩) <;> intro h
      · exact absurd (i1.mp h) h1
      · exact absurd (i2.mp h).2 h2

/-! ### Ranking engine (`src/backend/src/routes/leaderboard.ts`) -/

/-- Postgres `ROUND(x, 2)` on `numeric`: round to two decimal places, halves
away from zero. -/
def round2 (q : ℚ) : ℚ :=
  if 0 ≤ q then ((⌊q * 100 + 1 / 2⌋ : ℤ) : ℚ) / 100
  else -(((⌊-(q * 100) + 1 / 2⌋ : ℤ) : ℚ) / 100)

/-- The `change_percent` expression of both leaderboard queries:
`ROUND(((COALESCE(current, initial) - initial) / NULLIF(initial, 0)) * 100, 2)`.
SQL `NULL` is `none`: a zero `initial_deposit` makes `NULLIF` — and hence the
whole expression — `NULL`. -/
def changePercent (initial : ℚ) (current : Option ℚ) : Option ℚ :=
  if initial = 0 then none
  else some (round2 ((current.getD initial - initial) / initial * 100))

/-- Lexicographic strict comparison of char lists: exactly the order
JavaScript string `<` / `>` uses on code units, and the chronological order on
equal-length ISO `YYYY-MM-DD` date strings (the only comparisons the source
performs on dates). -/
def charsLT : List Char → List Char → Bool
  | [], [] => false
  | [], _ :: _ => true
  | _ :: _, [] => false
  | a :: as, b :: bs => if a < b then true else if b < a then false else charsLT as bs

/-- Strict date comparison, lexicographic on the ISO string. -/
def dateLT (a b : DateStr) : Bool := charsLT a.data b.data

/-- Non-strict date comparison (SQL `<=` on `DATE` values). -/
def dateLE (a b : DateStr) : Bool := !dateLT b a

/-- The `current_deposits` CTE, restricted to one user: the row with the
latest `deposit_date` at or before `asOf` (`DISTINCT ON (user_id) ... WHERE
deposit_date <= $1 ORDER BY user_id, deposit_date DESC`). -/
def latestAtOrBefore (deposits : List DepositRow) (uid : Nat) (asOf : DateStr) :
    Option DepositRow :=
  match deposits with
  | [] => none
  | r :: rest =>
    let best := latestAtOrBefore rest uid asOf
    if r.userId = uid ∧ dateLE r.depositDate asOf = true then
      match best with
      | none => some r
      | some b => if dateLT b.depositDate r.depositDate = true then some r else some b
    else best

/-- One participant together with the `change_percent` the SQL computes for
them (the rows of the `ranked` / `scored` CTEs that matter for ordering). -/
structure Scored where
  user : User
  pct : Option ℚ
deriving Repr, DecidableEq

/-- Score one participant: `COALESCE(cd.current_value, initial_deposit)`
against the initial deposit. -/
def scoreUser (deposits : List DepositRow) (asOf : DateStr) (u : User) : Scored :=
  { user := u,
    pct := changePercent u.initialDeposit
      ((latestAtOrBefore deposits u.id asOf).map (fun r => r.depositValue)) }

/-- Strict sort precedence on `change_percent` values under
`ORDER BY change_percent DESC NULLS LAST`: a non-NULL value precedes NULL, and
larger values precede smaller ones. -/
def pctGTb : Option ℚ → Option ℚ → Bool
  | some p, some q => decide (q < p)
  | some _, none => true
  | none, _ => false

/-- The full sort comparator of
`ORDER BY change_percent DESC NULLS LAST, registered_at ASC`, as a
reflexive total comparison: on equal percent values, earlier registration
comes first. -/
def scoreLEb (a b : Scored) : Bool :=
  if a.pct = b.pct then decide (a.user.registeredAt ≤ b.user.registeredAt)
  else pctGTb a.pct b.pct

/-- Propositional form of `scoreLEb`. -/
def scoreLE (a b : Scored) : Prop := scoreLEb a b = true

instance : DecidableRel scoreLE := fun a b => by unfold scoreLE; infer_instance

/-- The category filter of both queries:
`$cat IS NULL OR u.deposit_category = $cat`. -/
def passesFilter (cat : Option Nat) (u : User) : Bool :=
  match cat with
  | none => true
  | some c => decide (u.depositCategory = some c)

/-- The participants passing the category filter (the `WHERE` clause of the
`ranked` / `scored` CTEs). -/
def filteredUsers (db : DB) (cat : Option Nat) : List User :=
  db.users.filter (passesFilter cat)

/-- The full unpaginated ordering both queries range over: filtered, scored
participants sorted by `change_percent DESC NULLS LAST, registered_at ASC`. -/
def fullRanking (db : DB) (asOf : DateStr) (cat : Option Nat) : List Scored :=
  List.insertionSort scoreLE ((filteredUsers db cat).map (scoreUser db.deposits asOf))

/-- One serialized `LeaderboardEntry` of the HTTP response. -/
structure Entry where
  position : Nat
  telegramId : Nat
  displayName : String
  avatarUrl : Option String
  market : String
  instruments : List String
  pnlPercent : ℚ
  isCurrentUser : Bool
  depositCategory : Option Nat
deriving Repr, DecidableEq

/-- Serialize one scored row: a NULL `change_percent` is presented as `0`
(`row.change_percent !== null ? parseFloat(...) : 0`). -/
def mkEntry (pos : Nat) (isCur : Bool) (s : Scored) : Entry :=
  { position := pos, telegramId := s.user.telegramId,
    displayName := s.user.displayName, avatarUrl := s.user.photoUrl,
    market := s.user.market, instruments := s.user.instruments,
    pnlPercent := s.pct.getD 0, isCurrentUser := isCur,
    depositCategory := s.user.depositCategory }

/-- The rows the main query returns: `LIMIT $limit OFFSET (page-1)*limit` of
the full ordering. -/
def pageRows (db : DB) (asOf : DateStr) (cat : Option Nat) (page limit : Nat) :
    List Scored :=
  ((fullRanking db asOf cat).drop ((page - 1) * limit)).take limit

/-- Serialize a page, numbering positions consecutively from `pos`
(`position: offset + index + 1`). -/
def entriesFrom : Nat → List Scored → List Entry
  | _, [] => []
  | pos, s :: rest => mkEntry pos false s :: entriesFrom (pos + 1) rest

/-- The `entries` array of the main response. -/
def mainEntries (db : DB) (asOf : DateStr) (cat : Option Nat) (page limit : Nat) :
    List Entry :=
  entriesFrom ((page - 1) * limit + 1) (pageRows db asOf cat page limit)

/-- The `totalParticipants` field as the route computes it: the window
aggregate `COUNT(*) OVER ()` — the filtered participant count — read off the
first returned row, or `0` when the page is empty
(`result.rows.length > 0 ? parseInt(result.rows[0].total_count) : 0`). -/
def totalParticipants (db : DB) (asOf : DateStr) (cat : Option Nat)
    (page limit : Nat) : Nat :=
  if pageRows db asOf cat page limit = [] then 0 else (filteredUsers db cat).length

/-- First row of the ranked CTE whose `telegram_id` matches, together with its
`ROW_NUMBER()` (positions counted from `pos`). -/
def findRank : Nat → Nat → List Scored → Option (Nat × Scored)
  | _, _, [] => none
  | pos, tid, s :: rest =>
    if s.user.telegramId = tid then some (pos, s) else findRank (pos + 1) tid rest

/-- The `currentUser` side-channel lookup (`userSql`): `ROW_NUMBER()` over the
same filtered ordering, keeping only the row whose `telegram_id` matches
(the code reads `rows[0]`). -/
def lookupUser (db : DB) (asOf : DateStr) (cat : Option Nat) (tid : Nat) :
    Option Entry :=
  match findRank 1 tid (fullRanking db asOf cat) with
  | none => none
  | some (pos, s) => some (mkEntry pos true s)

/-! ### Cache layer (`src/backend/src/services/cache.ts`) and the
leaderboard route's use of it -/

/-- The cached main payload (`MainData` in `leaderboard.ts`): the serialized
page stored under one cache key; `currentUser` is always `null` in the cached
value, so it carries no field for it. -/
structure MainData where
  category : String
  totalParticipants : Nat
  entries : List Entry
  page : Nat
  limit : Nat
deriving Repr, DecidableEq

/-- The Redis keyspace, as an association list from key strings to cached
payloads (first binding wins, as a key is never stored twice). -/
structure Cache where
  entries : List (String × MainData)
deriving Repr, DecidableEq

/-- `cacheKey` from `leaderboard.ts`:
`leaderboard:cat:{category}:page:{page}:limit:{limit}`. -/
def cacheKey (category : String) (page limit : Nat) : String :=
  "leaderboard:cat:" ++ category ++ ":page:" ++ toString page ++
    ":limit:" ++ toString limit

/-- `cacheGet`: look a key up. -/
def cacheGetM (c : Cache) (k : String) : Option MainData :=
  match c.entries.find? (fun p => p.1 == k) with
  | none => none
  | some p => some p.2

/-- `cacheSet`: bind a key (replacing any previous binding). -/
def cacheSetM (c : Cache) (k : String) (v : MainData) : Cache :=
  { entries := (k, v) :: c.entries.filter (fun p => !(p.1 == k)) }

/-- Whether a key matches the glob `leaderboard:*` that
`cacheDelPattern` is invoked with — i.e. starts with `leaderboard:`. -/
def isLeaderboardKey (k : String) : Bool :=
  List.isPrefixOf "leaderboard:".data k.data

/-- `cacheDelPattern('leaderboard:*')`: delete every key matching the
pattern. -/
def cacheDelLeaderboard (c : Cache) : Cache :=
  { entries := c.entries.filter (fun p => !isLeaderboardKey p.1) }

/-- The full fresh computation of the main leaderboard payload (the body of
the cache-miss branch of the route). -/
def computeMain (db : DB) (asOf : DateStr) (cat : Option Nat) (catStr : String)
    (page limit : Nat) : MainData :=
  { category := catStr,
    totalParticipants := totalParticipants db asOf cat page limit,
    entries := mainEntries db asOf cat page limit,
    page := page, limit := limit }

/-- The cached-page part of `GET /api/leaderboard`: probe the cache, on a hit
return the cached payload unchanged, on a miss compute freshly and populate
the cache. Returns the response payload and the cache afterwards. -/
def leaderboardRead (db : DB) (c : Cache) (asOf : DateStr) (cat : Option Nat)
    (catStr : String) (page limit : Nat) : MainData × Cache :=
  match cacheGetM c (cacheKey catStr page limit) with
  | some md => (md, c)
  | none =>
    let md := computeMain db asOf cat catStr page limit
    (md, cacheSetM c (cacheKey catStr page limit) md)

/-! ### Deposit route (`src/backend/src/routes/deposit.ts`) -/

/-- Whether a snapshot row hits the `(user_id, deposit_date)` uniqueness
key. -/
def keyMatch (uid : Nat) (d : DateStr) (r : DepositRow) : Bool :=
  r.userId == uid && r.depositDate == d

/-- The `DO UPDATE SET deposit_value = EXCLUDED.deposit_value` action applied
to one row: rows hitting the conflict key get the new value, all others are
untouched. -/
def setValueIfKey (uid : Nat) (d : DateStr) (v : ℚ) (r : DepositRow) : DepositRow :=
  if r.userId = uid ∧ r.depositDate = d then { r with depositValue := v } else r

/-- The upsert of `POST /api/deposit/update`:
`INSERT INTO deposit_updates ... ON CONFLICT (user_id, deposit_date) DO
UPDATE SET deposit_value = EXCLUDED.deposit_value` against a table with
`UNIQUE(user_id, deposit_date)`. -/
def upsertDeposit (deposits : List DepositRow) (uid : Nat) (d : DateStr) (v : ℚ) :
    List DepositRow :=
  if deposits.any (keyMatch uid d) then deposits.map (setValueIfKey uid d v)
  else deposits ++ [{ userId := uid, depositDate := d, depositValue := v }]

/-- Outcome of `POST /api/deposit/update`, with the HTTP status the handler
sends. -/
inductive DepResult where
  | forbidden
  | notFound
  | ok (depositDate : DateStr) (depositValue : ℚ)
deriving Repr, DecidableEq

/-- HTTP status code of each deposit outcome. -/
def DepResult.status : DepResult → Nat
  | .forbidden => 403
  | .notFound => 404
  | .ok _ _ => 200

/-- The `POST /api/deposit/update` handler: the tournament-end guard
(`depositDate > '2026-03-29'`, JavaScript string comparison on the Moscow
date) runs before any database access; then the user is resolved by telegram
id, the snapshot upserted, and the whole leaderboard cache namespace
invalidated. A failing invalidation (`invalidateOk = false`) is caught and
the write still reports success. -/
def depositUpdate (db : DB) (c : Cache) (today : DateStr) (tid : Nat) (v : ℚ)
    (invalidateOk : Bool) : DepResult × DB × Cache :=
  if dateLT "2026-03-29" today = true then (.forbidden, db, c)
  else
    match db.users.find? (fun u => u.telegramId == tid) with
    | none => (.notFound, db, c)
    | some u =>
      let db2 : DB := { db with deposits := upsertDeposit db.deposits u.id today v }
      let c2 : Cache := if invalidateOk then cacheDelLeaderboard c else c
      (.ok today v, db2, c2)

/-! ### Registration route (`src/backend/src/routes/user.ts`) -/

/-- `MARKET_CURRENCY[market] ?? 'USDT'`. -/
def marketCurrency (m : String) : String :=
  if m = "crypto" then "USDT"
  else if m = "moex" then "RUB"
  else if m = "forex" then "USD"
  else "USDT"

/-- The registration seed insert:
`INSERT INTO deposit_updates ... ON CONFLICT (user_id, deposit_date) DO
NOTHING`. -/
def insertDepositIgnore (deposits : List DepositRow) (uid : Nat) (d : DateStr)
    (v : ℚ) : List DepositRow :=
  if deposits.any (keyMatch uid d) then deposits
  else deposits ++ [{ userId := uid, depositDate := d, depositValue := v }]

/-- Outcome of `POST /api/user/register`: a 409 conflict, or a 201 with the
created row and the hardcoded `depositUpdatedToday: true` of the response. -/
inductive RegResult where
  | conflict
  | created (u : User) (depositUpdatedToday : Bool)
deriving Repr, DecidableEq

/-- HTTP status code of each registration outcome. -/
def RegResult.status : RegResult → Nat
  | .conflict => 409
  | .created _ _ => 201

/-- The `POST /api/user/register` handler inside its transaction:
`INSERT INTO users ... ON CONFLICT (telegram_id) DO NOTHING` — when the
telegram id already has a row nothing is inserted, the transaction is rolled
back and 409 returned with the database untouched; otherwise the user row and
the seed snapshot for the registration date are committed together.
`newId` is the SERIAL id the insert assigns and `now` the `registered_at`
timestamp; the USD/RUB rate of the exchange-rate collaborator is a
parameter. -/
def register (db : DB) (today : DateStr) (tid : Nat) (displayName : String)
    (avatarUrl : Option String) (market : String) (instruments : List String)
    (initialDeposit : ℚ) (usdRubRate : ℚ) (newId : Nat) (now : Nat) :
    RegResult × DB :=
  if db.users.any (fun u => u.telegramId == tid) then (.conflict, db)
  else
    let currency := marketCurrency market
    let rub := toRub initialDeposit currency usdRubRate
    let u : User :=
      { id := newId, telegramId := tid, displayName := displayName,
        photoUrl := avatarUrl, market := market, instruments := instruments,
        currency := currency, initialDeposit := initialDeposit,
        initialDepositRub := rub, depositCategory := some (depositCategory rub),
        registeredAt := now }
    let db2 : DB :=
      { users := db.users ++ [u],
        deposits := insertDepositIgnore db.deposits newId today initialDeposit }
    (.created u true, db2)

/-! ### Order-theoretic facts about the sort comparator -/

theorem pctGTb_trans {x y z : Option ℚ} (h1 : pctGTb x y = true)
    (h2 : pctGTb y z = true) : pctGTb x z = true := by
  cases x <;> cases y <;> cases z
  all_goals simp [pctGTb] at *
  all_goals linarith

theorem pctGTb_asymm {x y : Option ℚ} (h1 : pctGTb x y = true)
    (h2 : pctGTb y x = true) : False := by
  cases x <;> cases y
  all_goals simp [pctGTb] at *
  all_goals linarith

theorem pctGTb_total {x y : Option ℚ} (h : x ≠ y) :
    pctGTb x y = true ∨ pctGTb y x = true := by
  cases x with
  | none =>
    cases y with
    | none => exact absurd rfl h
    | some q => right; simp [pctGTb]
  | some p =>
    cases y with
    | none => left; simp [pctGTb]
    | some q =>
      have hpq : p ≠ q := fun e => h (by rw [e])
      rcases lt_or_gt_of_ne hpq with hlt | hgt
      · right; simpa [pctGTb] using hlt
      · left; simpa [pctGTb] using hgt

instance : IsTotal Scored scoreLE where
  total a b := by
    unfold scoreLE scoreLEb
    by_cases h : a.pct = b.pct
    · rw [if_pos h, if_pos h.symm]
      simpa [decide_eq_true_eq] using Nat.le_total a.user.registeredAt b.user.registeredAt
    · rw [if_neg h, if_neg (Ne.symm h)]
      exact pctGTb_total h

instance : IsTrans Scored scoreLE where
  trans a b c hab hbc := by
    unfold scoreLE scoreLEb at *
    by_cases h1 : a.pct = b.pct <;> by_cases h2 : b.pct = c.pct
    · rw [if_pos h1] at hab
      rw [if_pos h2] at hbc
      rw [if_pos (h1.trans h2)]
      simp only [decide_eq_true_eq] at *
      exact le_trans hab hbc
    · rw [if_neg h2] at hbc
      rw [if_neg (fun e => h2 (h1.symm.trans e))]
      rw [h1]
      exact hbc
    · rw [if_neg h1] at hab
      rw [if_neg (fun e => h1 (e.trans h2.symm))]
      rw [← h2]
      exact hab
    · rw [if_neg h1] at hab
      rw [if_neg h2] at hbc
      have h3 : a.pct ≠ c.pct := by
        intro e
        rw [← e] at hbc
        exact pctGTb_asymm hab hbc
      rw [if_neg h3]
      exact pctGTb_trans hab hbc

/-- Two sorted lists that are permutations of each other are equal, provided
the order is antisymmetric on the elements involved. -/
theorem eq_of_perm_of_sorted_on {α : Type} {r : α → α → Prop} :
    ∀ {l1 l2 : List α}, l1.Perm l2 → l1.Sorted r → l2.Sorted r →
      (∀ a ∈ l1, ∀ b ∈ l1, r a b → r b a → a = b) → l1 = l2 := by
  intro l1
  induction l1 with
  | nil =>
    intro l2 hp _ _ _
    exact (List.Perm.eq_nil hp.symm).symm
  | cons a t1 ih =>
    intro l2 hp hs1 hs2 hanti
    cases l2 with
    | nil => exact absurd hp.symm (by simp)
    | cons b t2 =>
      have hab : a = b := by
        by_cases h : a = b
        · exact h
        · have hb1 : b ∈ a :: t1 := hp.symm.subset (List.mem_cons_self b t2)
          have hbt : b ∈ t1 := by
            rcases List.mem_cons.mp hb1 with e | e
            · exact absurd e.symm h
            · exact e
          have ha2 : a ∈ b :: t2 := hp.subset (List.mem_cons_self a t1)
          have hat : a ∈ t2 := by
            rcases List.mem_cons.mp ha2 with e | e
            · exact absurd e h
            · exact e
          exact hanti a (List.mem_cons_self a t1) b hb1
            (List.rel_of_sorted_cons hs1 b hbt) (List.rel_of_sorted_cons hs2 a hat)
      subst hab
      have hp2 : t1.Perm t2 := List.Perm.cons_inv hp
      have ht : t1 = t2 := ih hp2 hs1.of_cons hs2.of_cons
        (fun x hx y hy hxy hyx =>
          hanti x (List.mem_cons_of_mem a hx) y (List.mem_cons_of_mem a hy) hxy hyx)
      rw [ht]

/-! ### Basic facts about the ranking pipeline -/

theorem fullRanking_perm (db : DB) (asOf : DateStr) (cat : Option Nat) :
    (fullRanking db asOf cat).Perm
      ((filteredUsers db cat).map (scoreUser db.deposits asOf)) :=
  List.perm_insertionSort scoreLE _

theorem fullRanking_sorted (db : DB) (asOf : DateStr) (cat : Option Nat) :
    (fullRanking db asOf cat).Sorted scoreLE :=
  List.sorted_insertionSort scoreLE _

theorem mem_fullRanking {db : DB} {asOf : DateStr} {cat : Option Nat} {s : Scored} :
    s ∈ fullRanking db asOf cat ↔
      ∃ u ∈ filteredUsers db cat, scoreUser db.deposits asOf u = s := by
  rw [(fullRanking_perm db asOf cat).mem_iff]
  exact List.mem_map

theorem filteredUsers_subset {db : DB} {cat : Option Nat} :
    ∀ u ∈ filteredUsers db cat, u ∈ db.users :=
  fun _ hu => (List.mem_filter.mp hu).1

theorem fullRanking_length (db : DB) (asOf : DateStr) (cat : Option Nat) :
    (fullRanking db asOf cat).length = (filteredUsers db cat).length := by
  rw [(fullRanking_perm db asOf cat).length_eq, List.length_map]

/-- `scoreUser` keeps the user untouched. -/
theorem scoreUser_user (deposits : List DepositRow) (asOf : DateStr) (u : User) :
    (scoreUser deposits asOf u).user = u := rfl

/-- The telegram ids of the full ranking are those of the filtered users: in
particular they are `Nodup` whenever the table's telegram ids are. -/
theorem fullRanking_tids_nodup {db : DB} {asOf : DateStr} {cat : Option Nat}
    (hnd : (db.users.map (fun u => u.telegramId)).Nodup) :
    ((fullRanking db asOf cat).map (fun s => s.user.telegramId)).Nodup := by
  have hperm := (fullRanking_perm db asOf cat).map (fun s => s.user.telegramId)
  rw [List.Perm.nodup_iff hperm]
  rw [List.map_map]
  have : ((filteredUsers db cat).map
      ((fun s => s.user.telegramId) ∘ scoreUser db.deposits asOf)) =
      (filteredUsers db cat).map (fun u => u.telegramId) := rfl
  rw [this]
  exact (hnd.sublist (List.Sublist.map _ (List.filter_sublist db.users)))

/-- Two positions of the full ranking carrying the same telegram id coincide
when the table's telegram ids are unique. -/
theorem fullRanking_tid_index_unique {db : DB} {asOf : DateStr} {cat : Option Nat}
    {i j : Nat} {s1 s2 : Scored}
    (hnd : (db.users.map (fun u => u.telegramId)).Nodup)
    (h1 : (fullRanking db asOf cat)[i]? = some s1)
    (h2 : (fullRanking db asOf cat)[j]? = some s2)
    (ht : s1.user.telegramId = s2.user.telegramId) : i = j := by
  by_contra hij
  have hmap := @fullRanking_tids_nodup db asOf cat hnd
  rw [List.nodup_iff_getElem?_ne_getElem?] at hmap
  have g1 : ((fullRanking db asOf cat).map (fun s => s.user.telegramId))[i]? =
      some s1.user.telegramId := by
    rw [List.getElem?_map, h1]; rfl
  have g2 : ((fullRanking db asOf cat).map (fun s => s.user.telegramId))[j]? =
      some s2.user.telegramId := by
    rw [List.getElem?_map, h2]; rfl
  have hlen2 : j < (fullRanking db asOf cat).length := by
    have := List.getElem?_eq_some_iff.mp h2
    exact this.choose
  have hlen1 : i < (fullRanking db asOf cat).length := by
    have := List.getElem?_eq_some_iff.mp h1
    exact this.choose
  rcases Nat.lt_or_ge i j with hlt | hge
  · have := hmap i j hlt (by simpa using hlen2)
    rw [g1, g2, ht] at this
    exact this rfl
  · have hlt2 : j < i := Nat.lt_of_le_of_ne hge (fun e => hij e.symm)
    have := hmap j i hlt2 (by simpa using hlen1)
    rw [g1, g2, ht] at this
    exact this rfl

/-- Soundness and completeness of `findRank`: whenever some row carries the
wanted telegram id, `findRank` returns the first such row together with its
position counted from `pos`. -/
theorem findRank_spec : ∀ (l : List Scored) (pos tid : Nat),
    (∃ s ∈ l, s.user.telegramId = tid) →
    ∃ j s, findRank pos tid l = some (pos + j, s) ∧ l[j]? = some s ∧
      s.user.telegramId = tid := by
  intro l
  induction l with
  | nil => intro pos tid h; simp at h
  | cons a t ih =>
    intro pos tid h
    by_cases ha : a.user.telegramId = tid
    · exact ⟨0, a, by simp [findRank, ha], by simp, ha⟩
    · obtain ⟨s, hs, hst⟩ := h
      rcases List.mem_cons.mp hs with e | e
      · exact absurd (e ▸ hst) ha
      · obtain ⟨j, s2, hf, hg, ht2⟩ := ih (pos + 1) tid ⟨s, e, hst⟩
        refine ⟨j + 1, s2, ?_, by simpa using hg, ht2⟩
        have hstep : findRank pos tid (a :: t) = findRank (pos + 1) tid t := by
          simp [findRank, ha]
        rw [hstep, hf]
        have : pos + 1 + j = pos + (j + 1) := by omega
        rw [this]

/-- Membership in a serialized page: every entry is the serialization of the
row at some page-internal index, with the consecutive position stamp. -/
theorem mem_entriesFrom : ∀ (l : List Scored) (pos : Nat) (e : Entry),
    e ∈ entriesFrom pos l →
    ∃ k s, l[k]? = some s ∧ e = mkEntry (pos + k) false s := by
  intro l
  induction l with
  | nil => intro pos e h; simp [entriesFrom] at h
  | cons a t ih =>
    intro pos e h
    simp only [entriesFrom] at h
    rcases List.mem_cons.mp h with e0 | e0
    · exact ⟨0, a, by simp, by simpa using e0⟩
    · obtain ⟨k, s, hg, he⟩ := ih (pos + 1) e e0
      refine ⟨k + 1, s, by simpa using hg, ?_⟩
      rw [he]
      have : pos + 1 + k = pos + (k + 1) := by omega
      rw [this]

/-- A row read from the requested page sits in the full ranking at the
page offset plus the page-internal index. -/
theorem pageRows_getElem {db : DB} {asOf : DateStr} {cat : Option Nat}
    {page limit k : Nat} {s : Scored}
    (h : (pageRows db asOf cat page limit)[k]? = some s) :
    (fullRanking db asOf cat)[(page - 1) * limit + k]? = some s := by
  unfold pageRows at h
  have hk : k < limit := by
    by_contra hk
    rw [List.getElem?_take_eq_none (Nat.le_of_not_lt hk)] at h
    exact Option.noConfusion h
  rw [List.getElem?_take_of_lt hk, List.getElem?_drop] at h
  exact h

/-! ### Concrete data used by witnesses and counterexamples -/

/-- A concrete participant. -/
def wU1 : User :=
  { id := 1, telegramId := 101, displayName := "A", photoUrl := none,
    market := "crypto", instruments := ["BTC"], currency := "USDT",
    initialDeposit := 100, initialDepositRub := 9000, depositCategory := some 1,
    registeredAt := 1 }

/-- A second concrete participant, registered later. -/
def wU2 : User :=
  { wU1 with id := 2, telegramId := 102, displayName := "B", registeredAt := 2 }

/-- A participant with a zero initial deposit. -/
def wU0 : User :=
  { wU1 with
    id := 3, telegramId := 103, displayName := "Z", initialDeposit := 0,
    registeredAt := 3 }

/-- One registered participant, no snapshots. -/
def wDB1 : DB := { users := [wU1], deposits := [] }

/-- Two participants; the first gained 12 percent on 2026-01-02. -/
def wDB2 : DB :=
  { users := [wU1, wU2],
    deposits := [{ userId := 1, depositDate := "2026-01-02", depositValue := 112 }] }

/-- Two participants, one with a zero baseline. -/
def wDB0 : DB := { users := [wU1, wU0], deposits := [] }

/-- An empty cache. -/
def wCache0 : Cache := { entries := [] }

/-! ### Claims about the deposit route -/

/-- Claim C10: a deposit-update request arriving when the Moscow calendar
date is strictly after 2026-03-29 is rejected with HTTP 403 before any
database query runs: the handler returns `forbidden` immediately and both
the snapshot store and the cache come back unchanged, so no snapshot row is
created or modified and no cache invalidation occurs. -/
theorem depositUpdate_after_end_rejected (db : DB) (c : Cache) (today : DateStr)
    (tid : Nat) (v : ℚ) (invalidateOk : Bool)
    (h : dateLT "2026-03-29" today = true) :
    depositUpdate db c today tid v invalidateOk = (DepResult.forbidden, db, c) ∧
    (depositUpdate db c today tid v invalidateOk).1.status = 403 := by
  refine ⟨by simp [depositUpdate, h], ?_⟩
  simp [depositUpdate, h, DepResult.status]

theorem depositUpdate_after_end_rejected_witness :
    depositUpdate wDB1 wCache0 "2026-03-30" 101 50 true =
      (DepResult.forbidden, wDB1, wCache0) ∧
    (depositUpdate wDB1 wCache0 "2026-03-30" 101 50 true).1.status = 403 :=
  depositUpdate_after_end_rejected wDB1 wCache0 "2026-03-30" 101 50 true (by decide)

/-! ### Claims about registration -/

/-- Claim C7: a registration request for a telegram id that already has a
participant row is rejected with HTTP 409 and is atomic in its failure: the
database is returned exactly as it was — no user field is overwritten and no
snapshot row is inserted. -/
theorem register_conflict_unchanged (db : DB) (today : DateStr) (tid : Nat)
    (dn : String) (av : Option String) (mkt : String) (ins : List String)
    (dep rate : ℚ) (newId now : Nat)
    (h : ∃ u ∈ db.users, u.telegramId = tid) :
    register db today tid dn av mkt ins dep rate newId now =
      (RegResult.conflict, db) ∧
    (register db today tid dn av mkt ins dep rate newId now).1.status = 409 := by
  obtain ⟨u, hu, ht⟩ := h
  have hany : db.users.any (fun w => w.telegramId == tid) = true :=
    List.any_eq_true.mpr ⟨u, hu, by simp [ht]⟩
  refine ⟨by simp [register, hany], ?_⟩
  simp [register, hany, RegResult.status]

theorem register_conflict_unchanged_witness :
    register wDB1 "2026-01-05" 101 "X" none "moex" ["SBER"] 100 90 5 9 =
      (RegResult.conflict, wDB1) ∧
    (register wDB1 "2026-01-05" 101 "X" none "moex" ["SBER"] 100 90 5 9).1.status =
      409 :=
  register_conflict_unchanged wDB1 "2026-01-05" 101 "X" none "moex" ["SBER"] 100 90 5 9
    ⟨wU1, List.mem_cons_self wU1 [], rfl⟩

/-! ### Claims about the snapshot upsert -/

/-- The `UNIQUE(user_id, deposit_date)` schema invariant: no two rows share a
`(participant, date)` key. -/
def UniqueKeys (deposits : List DepositRow) : Prop :=
  deposits.Pairwise
    (fun r s => ¬(r.userId = s.userId ∧ r.depositDate = s.depositDate))

theorem keyMatch_eq_true {uid : Nat} {d : DateStr} {r : DepositRow} :
    keyMatch uid d r = true ↔ r.userId = uid ∧ r.depositDate = d := by
  simp [keyMatch]

theorem setValueIfKey_userId (uid : Nat) (d : DateStr) (v : ℚ) (r : DepositRow) :
    (setValueIfKey uid d v r).userId = r.userId := by
  unfold setValueIfKey; split <;> rfl

theorem setValueIfKey_date (uid : Nat) (d : DateStr) (v : ℚ) (r : DepositRow) :
    (setValueIfKey uid d v r).depositDate = r.depositDate := by
  unfold setValueIfKey; split <;> rfl

theorem keyMatch_setValueIfKey (uid : Nat) (d : DateStr) (v : ℚ) (r : DepositRow) :
    keyMatch uid d (setValueIfKey uid d v r) = keyMatch uid d r := by
  simp [keyMatch, setValueIfKey_userId, setValueIfKey_date]

/-- On a matching row, the conflict action yields exactly the incoming row. -/
theorem setValueIfKey_of_match {uid : Nat} {d : DateStr} {v : ℚ} {r : DepositRow}
    (hu : r.userId = uid) (hd : r.depositDate = d) :
    setValueIfKey uid d v r = { userId := uid, depositDate := d, depositValue := v } := by
  unfold setValueIfKey
  rw [if_pos ⟨hu, hd⟩]
  cases r
  simp_all

theorem setValueIfKey_of_no_match {uid : Nat} {d : DateStr} {v : ℚ} {r : DepositRow}
    (h : keyMatch uid d r = false) : setValueIfKey uid d v r = r := by
  unfold setValueIfKey
  rw [if_neg]
  intro hc
  rw [keyMatch_eq_true.mpr hc] at h
  exact Bool.noConfusion h

/-- Under the uniqueness invariant, the conflict-update branch leaves exactly
one row for the key, carrying the new value. -/
theorem filter_map_setValueIfKey (uid : Nat) (d : DateStr) (v : ℚ) :
    ∀ l : List DepositRow, UniqueKeys l → l.any (keyMatch uid d) = true →
    (l.map (setValueIfKey uid d v)).filter (keyMatch uid d) =
      [{ userId := uid, depositDate := d, depositValue := v }] := by
  intro l
  induction l with
  | nil => intro _ h; simp at h
  | cons r t ih =>
    intro hpw hany
    obtain ⟨hr, ht⟩ := List.pairwise_cons.mp hpw
    by_cases hm : keyMatch uid d r = true
    · obtain ⟨huid, hdate⟩ := keyMatch_eq_true.mp hm
      have htail : (t.map (setValueIfKey uid d v)).filter (keyMatch uid d) = [] := by
        rw [List.filter_eq_nil_iff]
        intro x hx
        obtain ⟨s, hs, rfl⟩ := List.mem_map.mp hx
        rw [keyMatch_setValueIfKey]
        intro hms
        obtain ⟨hsu, hsd⟩ := keyMatch_eq_true.mp hms
        exact hr s hs ⟨huid.trans hsu.symm, hdate.trans hsd.symm⟩
      rw [List.map_cons, List.filter_cons, setValueIfKey_of_match huid hdate]
      have : keyMatch uid d
          { userId := uid, depositDate := d, depositValue := v } = true := by
        simp [keyMatch]
      rw [if_pos this, htail]
    · have hfr : setValueIfKey uid d v r = r :=
        setValueIfKey_of_no_match (Bool.eq_false_iff.mpr hm)
      have hany2 : t.any (keyMatch uid d) = true := by
        rcases List.any_eq_true.mp hany with ⟨s, hs, hps⟩
        rcases List.mem_cons.mp hs with e | e
        · exact absurd (e ▸ hps) hm
        · exact List.any_eq_true.mpr ⟨s, e, hps⟩
      rw [List.map_cons, List.filter_cons, hfr, if_neg (by simpa using hm)]
      exact ih ht hany2

/-- Claim C5: the snapshot store holds at most one row per
`(participant, date)`. Starting from the schema invariant, an upsert
(a) preserves the invariant, (b) leaves exactly one row for the written key,
carrying the written value, and (c) is idempotent: submitting the identical
`(participant, date, value)` again changes nothing. -/
theorem upsertDeposit_unique_idempotent (deposits : List DepositRow) (uid : Nat)
    (d : DateStr) (v : ℚ) (h : UniqueKeys deposits) :
    UniqueKeys (upsertDeposit deposits uid d v) ∧
    (upsertDeposit deposits uid d v).filter (keyMatch uid d) =
      [{ userId := uid, depositDate := d, depositValue := v }] ∧
    upsertDeposit (upsertDeposit deposits uid d v) uid d v =
      upsertDeposit deposits uid d v := by
  by_cases hany : deposits.any (keyMatch uid d) = true
  · have he : upsertDeposit deposits uid d v = deposits.map (setValueIfKey uid d v) := by
      simp [upsertDeposit, hany]
    refine ⟨?_, ?_, ?_⟩
    · rw [he]
      exact List.Pairwise.map _ (fun a b hab => by
        rw [setValueIfKey_userId, setValueIfKey_userId,
          setValueIfKey_date, setValueIfKey_date]
        exact hab) h
    · rw [he]
      exact filter_map_setValueIfKey uid d v deposits h hany
    · rw [he]
      have hany2 : (deposits.map (setValueIfKey uid d v)).any (keyMatch uid d) = true := by
        rcases List.any_eq_true.mp hany with ⟨s, hs, hps⟩
        exact List.any_eq_true.mpr
          ⟨setValueIfKey uid d v s, List.mem_map_of_mem _ hs,
            by rw [keyMatch_setValueIfKey]; exact hps⟩
      rw [upsertDeposit, if_pos hany2, List.map_map]
      refine List.map_congr_left (fun r _ => ?_)
      show setValueIfKey uid d v (setValueIfKey uid d v r) = setValueIfKey uid d v r
      by_cases hm : keyMatch uid d r = true
      · obtain ⟨huid, hdate⟩ := keyMatch_eq_true.mp hm
        rw [setValueIfKey_of_match huid hdate]
        exact setValueIfKey_of_match rfl rfl
      · have hf := Bool.eq_false_iff.mpr hm
        rw [setValueIfKey_of_no_match hf, setValueIfKey_of_no_match hf]
  · have hanyf : deposits.any (keyMatch uid d) = false := Bool.eq_false_iff.mpr hany
    have he : upsertDeposit deposits uid d v =
        deposits ++ [{ userId := uid, depositDate := d, depositValue := v }] := by
      simp [upsertDeposit, hanyf]
    have hnone : ∀ r ∈ deposits, keyMatch uid d r = false := by
      intro r hr
      exact Bool.eq_false_iff.mpr (List.any_eq_false.mp hanyf r hr ·)
    refine ⟨?_, ?_, ?_⟩
    · rw [he]
      unfold UniqueKeys
      rw [List.pairwise_append]
      refine ⟨h, List.pairwise_singleton _ _, ?_⟩
      intro a ha b hb hab
      rw [List.mem_singleton.mp hb] at hab
      obtain ⟨h1, h2⟩ := hab
      have : keyMatch uid d a = true := keyMatch_eq_true.mpr ⟨h1, h2⟩
      rw [hnone a ha] at this
      exact Bool.noConfusion this
    · rw [he, List.filter_append, List.filter_eq_nil_iff.mpr
        (fun a ha hpa => by rw [hnone a ha] at hpa; exact Bool.noConfusion hpa)]
      simp [List.filter_cons, keyMatch]
    · rw [he]
      have hany2 : (deposits ++
          [({ userId := uid, depositDate := d, depositValue := v } : DepositRow)]).any
            (keyMatch uid d) = true :=
        List.any_eq_true.mpr
          ⟨{ userId := uid, depositDate := d, depositValue := v },
            List.mem_append_right _ (List.mem_cons_self _ _), by simp [keyMatch]⟩
      rw [upsertDeposit, if_pos hany2, List.map_append]
      have h1 : deposits.map (setValueIfKey uid d v) = deposits := by
        have : deposits.map (setValueIfKey uid d v) = deposits.map id :=
          List.map_congr_left (fun r hr => setValueIfKey_of_no_match (hnone r hr))
        rw [this, List.map_id]
      have h2 : ([({ userId := uid, depositDate := d, depositValue := v } : DepositRow)]).map
          (setValueIfKey uid d v) =
          [{ userId := uid, depositDate := d, depositValue := v }] := by
        simp [setValueIfKey]
      rw [h1, h2]

/-- A concrete snapshot row holding value 100. -/
def wRow100 : DepositRow :=
  { userId := 1, depositDate := "2026-01-02", depositValue := 100 }

/-- The same key as `wRow100`, holding value 120. -/
def wRow120 : DepositRow :=
  { userId := 1, depositDate := "2026-01-02", depositValue := 120 }

theorem upsertDeposit_unique_idempotent_witness :
    UniqueKeys (upsertDeposit [wRow100] 1 "2026-01-02" 120) ∧
    (upsertDeposit [wRow100] 1 "2026-01-02" 120).filter (keyMatch 1 "2026-01-02") =
      [wRow120] ∧
    upsertDeposit (upsertDeposit [wRow100] 1 "2026-01-02" 120) 1 "2026-01-02" 120 =
      upsertDeposit [wRow100] 1 "2026-01-02" 120 :=
  upsertDeposit_unique_idempotent [wRow100] 1 "2026-01-02" 120
    (List.pairwise_singleton _ _)

/-! ### Claim C6: zero baseline never leaks NaN or Infinity -/

/-- Soundness of `findRank`: a returned row is a member and carries the
wanted telegram id. -/
theorem findRank_sound : ∀ (l : List Scored) (pos tid k : Nat) (s : Scored),
    findRank pos tid l = some (k, s) → s ∈ l ∧ s.user.telegramId = tid := by
  intro l
  induction l with
  | nil => intro pos tid k s h; simp [findRank] at h
  | cons a t ih =>
    intro pos tid k s h
    unfold findRank at h
    by_cases ha : a.user.telegramId = tid
    · rw [if_pos ha] at h
      have h2 := (Option.some.injEq _ _).mp h
      have hs : a = s := congrArg Prod.snd h2
      exact ⟨hs ▸ List.mem_cons_self a t, hs ▸ ha⟩
    · rw [if_neg ha] at h
      obtain ⟨hm, ht⟩ := ih (pos + 1) tid k s h
      exact ⟨List.mem_cons_of_mem a hm, ht⟩

/-- Every scored row of the ranking with this participant's telegram id
presents a pnl of zero when the participant's baseline is zero. -/
theorem zero_baseline_scored {db : DB} {asOf : DateStr} {cat : Option Nat}
    {u : User} (hmem : u ∈ db.users) (h0 : u.initialDeposit = 0)
    (hnd : (db.users.map (fun w => w.telegramId)).Nodup) :
    ∀ s ∈ fullRanking db asOf cat, s.user.telegramId = u.telegramId →
      s.pct.getD 0 = 0 := by
  intro s hs ht
  obtain ⟨w, hw, rfl⟩ := mem_fullRanking.mp hs
  have hw2 : w ∈ db.users := filteredUsers_subset w hw
  have hwu : w = u := List.inj_on_of_nodup_map hnd hw2 hmem ht
  subst hwu
  show (changePercent w.initialDeposit _).getD 0 = 0
  rw [h0]
  simp [changePercent]

/-- Claim C6: for every participant whose baseline (initial deposit) is zero,
the computed pnlPercent is 0 — both in the main ranking entries and in the
currentUser lookup. In the embedding with exact rationals no NaN or Infinity
exists at all; the division is guarded by the `NULLIF`, the NULL is presented
as 0. -/
theorem zero_baseline_pnl_zero (db : DB) (asOf : DateStr) (cat : Option Nat)
    (page limit : Nat) (u : User)
    (hmem : u ∈ db.users) (h0 : u.initialDeposit = 0)
    (hnd : (db.users.map (fun w => w.telegramId)).Nodup) :
    (∀ e ∈ mainEntries db asOf cat page limit,
      e.telegramId = u.telegramId → e.pnlPercent = 0) ∧
    (∀ e, lookupUser db asOf cat u.telegramId = some e → e.pnlPercent = 0) := by
  constructor
  · intro e he ht
    obtain ⟨k, s, hg, rfl⟩ := mem_entriesFrom _ _ e he
    have hsmem : s ∈ fullRanking db asOf cat := by
      have := pageRows_getElem hg
      obtain ⟨hlt, hget⟩ := List.getElem?_eq_some_iff.mp this
      exact hget ▸ List.getElem_mem hlt
    exact zero_baseline_scored hmem h0 hnd s hsmem ht
  · intro e he
    unfold lookupUser at he
    cases hfr : findRank 1 u.telegramId (fullRanking db asOf cat) with
    | none => rw [hfr] at he; exact Option.noConfusion he
    | some ps =>
      rw [hfr] at he
      obtain ⟨hm, ht⟩ := findRank_sound _ _ _ _ _ hfr
      have : e = mkEntry ps.1 true ps.2 := by
        cases ps
        exact ((Option.some.injEq _ _).mp he).symm
      rw [this]
      exact zero_baseline_scored hmem h0 hnd ps.2 hm ht

theorem zero_baseline_pnl_zero_witness :
    (∀ e ∈ mainEntries wDB0 "2026-01-01" none 1 200,
      e.telegramId = wU0.telegramId → e.pnlPercent = 0) ∧
    (∀ e, lookupUser wDB0 "2026-01-01" none wU0.telegramId = some e →
      e.pnlPercent = 0) :=
  zero_baseline_pnl_zero wDB0 "2026-01-01" none 1 200 wU0
    (List.mem_cons_of_mem _ (List.mem_cons_self _ _)) rfl (by decide)

/-! ### Claim C1: the totalParticipants field -/

/-- Claim C1 (amended): for a valid request the reported `totalParticipants`
equals the filtered participant count exactly when the page offset lies
within the data; on a page past the end, `entries` is empty and the route
reports `totalParticipants = 0` (the window-aggregate count is read off the
first returned row, and there is none). -/
theorem totalParticipants_characterized (db : DB) (asOf : DateStr)
    (cat : Option Nat) (page limit : Nat)
    (_hpage : 1 ≤ page) (hl : 1 ≤ limit) (hcap : limit ≤ 500) :
    totalParticipants db asOf cat page limit =
      (if (page - 1) * limit < (filteredUsers db cat).length
       then (filteredUsers db cat).length else 0) ∧
    ((filteredUsers db cat).length ≤ (page - 1) * limit →
      mainEntries db asOf cat page limit = []) := by
  have hempty : pageRows db asOf cat page limit = [] ↔
      (filteredUsers db cat).length ≤ (page - 1) * limit := by
    unfold pageRows
    constructor
    · intro h
      rcases List.take_eq_nil_iff.mp h with h1 | h1
      · omega
      · have h2 := List.drop_eq_nil_iff.mp h1
        rw [fullRanking_length] at h2
        exact h2
    · intro h
      have h2 : (fullRanking db asOf cat).drop ((page - 1) * limit) = [] :=
        List.drop_eq_nil_iff.mpr (by rw [fullRanking_length]; exact h)
      rw [h2, List.take_nil]
  constructor
  · unfold totalParticipants
    by_cases hc : (page - 1) * limit < (filteredUsers db cat).length
    · rw [if_pos hc, if_neg]
      intro hnil
      exact absurd (hempty.mp hnil) (by omega)
    · rw [if_neg hc, if_pos (hempty.mpr (by omega))]
  · intro h
    unfold mainEntries
    rw [hempty.mpr h]
    rfl

theorem totalParticipants_characterized_witness :
    (totalParticipants wDB1 "2026-01-02" none 2 1 =
      (if (2 - 1) * 1 < (filteredUsers wDB1 none).length
       then (filteredUsers wDB1 none).length else 0)) ∧
    ((filteredUsers wDB1 none).length ≤ (2 - 1) * 1 →
      mainEntries wDB1 "2026-01-02" none 2 1 = []) :=
  totalParticipants_characterized wDB1 "2026-01-02" none 2 1
    (by norm_num) (by norm_num) (by norm_num)

/-- Claim C1 counterexample: with one registered participant the valid
request (category all, page 2, limit 1) has an empty page, and the route
reports `totalParticipants = 0` even though 1 participant passes the filter —
the total is not pagination-independent. -/
theorem totalParticipants_zero_on_empty_page :
    totalParticipants wDB1 "2026-01-02" none 2 1 = 0 ∧
    mainEntries wDB1 "2026-01-02" none 2 1 = [] ∧
    (filteredUsers wDB1 none).length = 1 ∧
    totalParticipants wDB1 "2026-01-02" none 2 1 ≠
      (filteredUsers wDB1 none).length := by
  refine ⟨?_, ?_, ?_, ?_⟩ <;>
    norm_num [totalParticipants, pageRows, fullRanking, filteredUsers, passesFilter,
      scoreUser, changePercent, round2, latestAtOrBefore, dateLE, dateLT, charsLT,
      List.insertionSort, List.orderedInsert, scoreLE, scoreLEb, pctGTb,
      mainEntries, entriesFrom, wDB1, wU1]

/-! ### Claim C3: cache invalidation on deposit writes -/

/-- Every key the leaderboard route stores under matches the invalidation
glob `leaderboard:*`. -/
theorem cacheKey_isLeaderboardKey (catStr : String) (page limit : Nat) :
    isLeaderboardKey (cacheKey catStr page limit) = true := by
  unfold isLeaderboardKey cacheKey
  rw [List.isPrefixOf_iff_prefix]
  simp only [String.data_append, List.append_assoc]
  refine List.IsPrefix.trans ?_ (List.prefix_append _ _)
  decide

/-- After a successful pattern invalidation no leaderboard key is bound. -/
theorem cacheGetM_delLeaderboard (c : Cache) (k : String)
    (hk : isLeaderboardKey k = true) :
    cacheGetM (cacheDelLeaderboard c) k = none := by
  unfold cacheGetM cacheDelLeaderboard
  rw [List.find?_eq_none.mpr]
  intro p hp
  have hmem := List.mem_filter.mp hp
  intro hpe
  have : p.1 = k := by simpa using hpe
  rw [this, hk] at hmem
  exact Bool.noConfusion hmem.2

/-- The upserted row is present afterwards. -/
theorem mem_upsertDeposit_self (deposits : List DepositRow) (uid : Nat)
    (d : DateStr) (v : ℚ) :
    ({ userId := uid, depositDate := d, depositValue := v } : DepositRow) ∈
      upsertDeposit deposits uid d v := by
  unfold upsertDeposit
  by_cases hany : deposits.any (keyMatch uid d) = true
  · rw [if_pos hany]
    obtain ⟨r, hr, hm⟩ := List.any_eq_true.mp hany
    obtain ⟨hu, hd⟩ := keyMatch_eq_true.mp hm
    exact List.mem_map.mpr ⟨r, hr, setValueIfKey_of_match hu hd⟩
  · rw [if_neg hany]
    exact List.mem_append_right _ (List.mem_cons_self _ _)

/-- Claim C3 (amended): after a deposit write that succeeds and whose cache
invalidation also succeeds, the next leaderboard read — for any key,
regardless of what was cached before the write — misses the cache and returns
the payload computed freshly from the post-write database, which contains the
newly written row. (When the invalidation fails, the write still reports
success and a stale page may be served until the TTL expires; see the
counterexample.) -/
theorem read_fresh_after_invalidated_write (db : DB) (c : Cache) (today : DateStr)
    (tid : Nat) (v : ℚ) (u : User) (res : DepResult) (db2 : DB) (c2 : Cache)
    (readAsOf : DateStr) (cat : Option Nat) (catStr : String) (page limit : Nat)
    (hfind : db.users.find? (fun w => w.telegramId == tid) = some u)
    (hdate : dateLT "2026-03-29" today = false)
    (hrun : depositUpdate db c today tid v true = (res, db2, c2)) :
    res = DepResult.ok today v ∧
    ({ userId := u.id, depositDate := today, depositValue := v } : DepositRow) ∈
      db2.deposits ∧
    leaderboardRead db2 c2 readAsOf cat catStr page limit =
      (computeMain db2 readAsOf cat catStr page limit,
        cacheSetM c2 (cacheKey catStr page limit)
          (computeMain db2 readAsOf cat catStr page limit)) := by
  have hstep : depositUpdate db c today tid v true =
      (DepResult.ok today v,
        { db with deposits := upsertDeposit db.deposits u.id today v },
        cacheDelLeaderboard c) := by
    unfold depositUpdate
    rw [if_neg (by rw [hdate]; exact Bool.false_ne_true), hfind]
    simp
  rw [hstep] at hrun
  injection hrun with h1 hrest
  injection hrest with h2 h3
  subst h1
  subst h2
  subst h3
  refine ⟨rfl, mem_upsertDeposit_self _ _ _ _, ?_⟩
  unfold leaderboardRead
  rw [cacheGetM_delLeaderboard _ _ (cacheKey_isLeaderboardKey catStr page limit)]

theorem read_fresh_after_invalidated_write_witness :
    (depositUpdate wDB1 wCache0 "2026-01-02" 101 112 true).1 =
      DepResult.ok "2026-01-02" 112 ∧
    ({ userId := wU1.id, depositDate := "2026-01-02", depositValue := 112 } :
        DepositRow) ∈ (depositUpdate wDB1 wCache0 "2026-01-02" 101 112 true).2.1.deposits ∧
    leaderboardRead (depositUpdate wDB1 wCache0 "2026-01-02" 101 112 true).2.1
        (depositUpdate wDB1 wCache0 "2026-01-02" 101 112 true).2.2
        "2026-01-02" none "all" 1 200 =
      (computeMain (depositUpdate wDB1 wCache0 "2026-01-02" 101 112 true).2.1
          "2026-01-02" none "all" 1 200,
        cacheSetM (depositUpdate wDB1 wCache0 "2026-01-02" 101 112 true).2.2
          (cacheKey "all" 1 200)
          (computeMain (depositUpdate wDB1 wCache0 "2026-01-02" 101 112 true).2.1
            "2026-01-02" none "all" 1 200)) :=
  read_fresh_after_invalidated_write wDB1 wCache0 "2026-01-02" 101 112 wU1
    (depositUpdate wDB1 wCache0 "2026-01-02" 101 112 true).1
    (depositUpdate wDB1 wCache0 "2026-01-02" 101 112 true).2.1
    (depositUpdate wDB1 wCache0 "2026-01-02" 101 112 true).2.2
    "2026-01-02" none "all" 1 200 rfl (by decide) rfl

/-- The pre-write cached page for (all, page 1, limit 200), computed from
`wDB1`. -/
def wStale : MainData := computeMain wDB1 "2026-01-02" none "all" 1 200

/-- A cache still holding that page. -/
def wCacheStale : Cache := { entries := [(cacheKey "all" 1 200, wStale)] }

/-- Claim C3 counterexample: the deposit write succeeds even when its cache
invalidation fails (the route catches the error as non-fatal), and then the
next leaderboard read serves the stale cached page, which does not reflect
the newly written value. -/
theorem stale_read_after_failed_invalidation :
    (depositUpdate wDB1 wCacheStale "2026-01-02" 101 112 false).1 =
      DepResult.ok "2026-01-02" 112 ∧
    (leaderboardRead (depositUpdate wDB1 wCacheStale "2026-01-02" 101 112 false).2.1
        (depositUpdate wDB1 wCacheStale "2026-01-02" 101 112 false).2.2
        "2026-01-02" none "all" 1 200).1 = wStale ∧
    wStale.entries ≠
      (computeMain (depositUpdate wDB1 wCacheStale "2026-01-02" 101 112 false).2.1
        "2026-01-02" none "all" 1 200).entries := by
  have hguard : dateLT "2026-03-29" "2026-01-02" = false := by decide
  have hle : dateLE "2026-01-02" "2026-01-02" = true := by decide
  refine ⟨?_, ?_, ?_⟩ <;>
    norm_num [depositUpdate, hguard, hle, upsertDeposit, keyMatch, setValueIfKey,
      leaderboardRead, cacheGetM, wCacheStale, wStale, computeMain,
      totalParticipants, pageRows, fullRanking, filteredUsers, passesFilter,
      scoreUser, changePercent, round2, latestAtOrBefore,
      List.insertionSort, List.orderedInsert, scoreLE, scoreLEb, pctGTb,
      mainEntries, entriesFrom, mkEntry, wDB1, wU1, List.find?]

/-! ### Claim C9: registration seeds a snapshot -/

/-- Resolving the current value over a store whose only row for the user is a
freshly appended one finds exactly that row. -/
theorem latestAtOrBefore_append_fresh (l : List DepositRow) (r : DepositRow)
    (uid : Nat) (asOf : DateStr)
    (hfresh : ∀ s ∈ l, s.userId ≠ uid) (hu : r.userId = uid)
    (hd : dateLE r.depositDate asOf = true) :
    latestAtOrBefore (l ++ [r]) uid asOf = some r := by
  induction l with
  | nil => simp [latestAtOrBefore, hu, hd]
  | cons s t ih =>
    have hs : s.userId ≠ uid := hfresh s (List.mem_cons_self s t)
    have ih2 := ih (fun x hx => hfresh x (List.mem_cons_of_mem s hx))
    simp only [List.cons_append, latestAtOrBefore]
    rw [if_neg (fun hc => hs hc.1)]
    exact ih2

/-- Claim C9: a successful registration inserts, in the same transaction, a
seed snapshot for the registration date whose value is the initial deposit.
Consequently the new participant's current value resolves to that snapshot
for every as-of date from the registration date on (the fall-back-to-initial
branch is not exercised), their computed pnl is 0 until a different value is
submitted, and the response reports `depositUpdatedToday = true` with
status 201. -/
theorem register_seeds_snapshot (db : DB) (today : DateStr) (tid : Nat)
    (dn : String) (av : Option String) (mkt : String) (ins : List String)
    (dep rate : ℚ) (newId now : Nat) (res : RegResult) (db2 : DB) (asOf : DateStr)
    (hnew : db.users.any (fun w => w.telegramId == tid) = false)
    (hfresh : ∀ r ∈ db.deposits, r.userId ≠ newId)
    (hdep : dep ≠ 0)
    (hAsOf : dateLE today asOf = true)
    (hrun : register db today tid dn av mkt ins dep rate newId now = (res, db2)) :
    ∃ u : User, res = RegResult.created u true ∧ res.status = 201 ∧
      u.id = newId ∧ u.telegramId = tid ∧ u.initialDeposit = dep ∧
      u ∈ db2.users ∧
      ({ userId := newId, depositDate := today, depositValue := dep } : DepositRow) ∈
        db2.deposits ∧
      latestAtOrBefore db2.deposits newId asOf =
        some { userId := newId, depositDate := today, depositValue := dep } ∧
      scoreUser db2.deposits asOf u = { user := u, pct := some 0 } := by
  have hne : ¬ db.users.any (fun w => w.telegramId == tid) = true := by
    rw [hnew]; exact Bool.false_ne_true
  unfold register at hrun
  rw [if_neg hne] at hrun
  injection hrun with h1 h2
  subst h1
  subst h2
  have hanyf : db.deposits.any (keyMatch newId today) = false :=
    List.any_eq_false.mpr (fun r hr hk => hfresh r hr (keyMatch_eq_true.mp hk).1)
  have hins : insertDepositIgnore db.deposits newId today dep =
      db.deposits ++ [{ userId := newId, depositDate := today, depositValue := dep }] := by
    simp [insertDepositIgnore, hanyf]
  have hlat : latestAtOrBefore (insertDepositIgnore db.deposits newId today dep)
      newId asOf =
      some { userId := newId, depositDate := today, depositValue := dep } := by
    rw [hins]
    exact latestAtOrBefore_append_fresh db.deposits _ newId asOf hfresh rfl hAsOf
  have hpct : changePercent dep (some dep) = some 0 := by
    unfold changePercent
    rw [if_neg hdep]
    norm_num [round2]
  refine ⟨_, rfl, rfl, rfl, rfl, rfl, ?_, ?_, ?_, ?_⟩
  · exact List.mem_append_right _ (List.mem_cons_self _ _)
  · show _ ∈ insertDepositIgnore db.deposits newId today dep
    rw [hins]
    exact List.mem_append_right _ (List.mem_cons_self _ _)
  · exact hlat
  · show scoreUser (insertDepositIgnore db.deposits newId today dep) asOf _ = _
    unfold scoreUser
    rw [show latestAtOrBefore (insertDepositIgnore db.deposits newId today dep)
        (User.id _) asOf =
        some { userId := newId, depositDate := today, depositValue := dep } from hlat]
    simp only [Option.map_some]
    congr 1

/-- An empty database. -/
def wDBEmpty : DB := { users := [], deposits := [] }

theorem register_seeds_snapshot_witness :
    ∃ u : User,
      (register wDBEmpty "2026-01-01" 7 "N" none "crypto" ["BTC"] 100 90 1 5).1 =
        RegResult.created u true ∧
      (register wDBEmpty "2026-01-01" 7 "N" none "crypto" ["BTC"] 100 90 1 5).1.status =
        201 ∧
      u.id = 1 ∧ u.telegramId = 7 ∧ u.initialDeposit = 100 ∧
      u ∈ (register wDBEmpty "2026-01-01" 7 "N" none "crypto" ["BTC"] 100 90 1 5).2.users ∧
      ({ userId := 1, depositDate := "2026-01-01", depositValue := 100 } : DepositRow) ∈
        (register wDBEmpty "2026-01-01" 7 "N" none "crypto" ["BTC"] 100 90 1 5).2.deposits ∧
      latestAtOrBefore
          (register wDBEmpty "2026-01-01" 7 "N" none "crypto" ["BTC"] 100 90 1 5).2.deposits
          1 "2026-01-02" =
        some { userId := 1, depositDate := "2026-01-01", depositValue := 100 } ∧
      scoreUser
          (register wDBEmpty "2026-01-01" 7 "N" none "crypto" ["BTC"] 100 90 1 5).2.deposits
          "2026-01-02" u = { user := u, pct := some 0 } :=
  register_seeds_snapshot wDBEmpty "2026-01-01" 7 "N" none "crypto" ["BTC"] 100 90 1 5
    (register wDBEmpty "2026-01-01" 7 "N" none "crypto" ["BTC"] 100 90 1 5).1
    (register wDBEmpty "2026-01-01" 7 "N" none "crypto" ["BTC"] 100 90 1 5).2
    "2026-01-02" rfl (fun r hr => absurd hr (List.not_mem_nil r))
    (by norm_num) (by decide) rfl

/-! ### Claim C4: the ranking is a deterministic total order -/

/-- The documented presentation order of the spec: percent change (as
presented) descending, exact ties broken by registration timestamp ascending
(earlier registrant first). -/
def specLE (a b : Scored) : Prop :=
  b.pct.getD 0 < a.pct.getD 0 ∨
    (a.pct.getD 0 = b.pct.getD 0 ∧ a.user.registeredAt ≤ b.user.registeredAt)

/-- Claim C4: over data where every participant has a nonzero baseline (as
registration validation guarantees) and registration timestamps are distinct,
the full ranking is exactly the total order sorting by percent change
descending with ties broken by registration timestamp ascending: the engine's
output is a permutation of the filtered scored participants, it is sorted by
that order, and it is the unique such sorted permutation — so two
computations over the same data yield the identical sequence. -/
theorem ranking_total_order (db : DB) (asOf : DateStr) (cat : Option Nat)
    (hnz : ∀ u ∈ db.users, u.initialDeposit ≠ 0)
    (hreg : (db.users.map (fun u => u.registeredAt)).Nodup) :
    (fullRanking db asOf cat).Perm
      ((filteredUsers db cat).map (scoreUser db.deposits asOf)) ∧
    (fullRanking db asOf cat).Sorted specLE ∧
    ∀ l : List Scored,
      l.Perm ((filteredUsers db cat).map (scoreUser db.deposits asOf)) →
      l.Sorted specLE → l = fullRanking db asOf cat := by
  have hsome : ∀ s ∈ fullRanking db asOf cat, ∃ q, s.pct = some q := by
    intro s hs
    obtain ⟨w, hw, rfl⟩ := mem_fullRanking.mp hs
    show ∃ q, changePercent w.initialDeposit _ = some q
    unfold changePercent
    rw [if_neg (hnz w (filteredUsers_subset w hw))]
    exact ⟨_, rfl⟩
  have himp : ∀ a b : Scored, (∃ qa, a.pct = some qa) → (∃ qb, b.pct = some qb) →
      scoreLE a b → specLE a b := by
    rintro a b ⟨qa, ha⟩ ⟨qb, hb⟩ hab
    unfold scoreLE scoreLEb at hab
    unfold specLE
    rw [ha, hb] at hab ⊢
    by_cases h : (some qa : Option ℚ) = some qb
    · rw [if_pos h] at hab
      right
      have hq : qa = qb := (Option.some.injEq _ _).mp h
      exact ⟨by simp [hq], by simpa using hab⟩
    · rw [if_neg h] at hab
      left
      simpa [pctGTb] using hab
  have hsorted : (fullRanking db asOf cat).Sorted specLE := by
    refine List.Pairwise.imp_of_mem ?_ (fullRanking_sorted db asOf cat)
    intro a b ha hb hab
    exact himp a b (hsome a ha) (hsome b hb) hab
  refine ⟨fullRanking_perm db asOf cat, hsorted, ?_⟩
  intro l hl hls
  have hperm2 : l.Perm (fullRanking db asOf cat) :=
    hl.trans (fullRanking_perm db asOf cat).symm
  refine eq_of_perm_of_sorted_on hperm2 hls hsorted ?_
  intro a ha b hb hab hba
  obtain ⟨wa, hwa, hwa2⟩ := mem_fullRanking.mp (hperm2.subset ha)
  obtain ⟨wb, hwb, hwb2⟩ := mem_fullRanking.mp (hperm2.subset hb)
  rcases hab with h1 | ⟨h1, h2⟩
  · rcases hba with h3 | ⟨h3, h4⟩
    · exact absurd h1 (lt_asymm h3)
    · exact absurd h1 (by rw [h3]; exact lt_irrefl _)
  · rcases hba with h3 | ⟨h3, h4⟩
    · exact absurd h3 (by rw [h1]; exact lt_irrefl _)
    · have hra : a.user.registeredAt = b.user.registeredAt := Nat.le_antisymm h2 h4
      have hwr : wa.registeredAt = wb.registeredAt := by
        rw [show wa.registeredAt = a.user.registeredAt from by rw [← hwa2]; rfl,
          show wb.registeredAt = b.user.registeredAt from by rw [← hwb2]; rfl]
        exact hra
      have hw : wa = wb :=
        List.inj_on_of_nodup_map hreg (filteredUsers_subset wa hwa)
          (filteredUsers_subset wb hwb) hwr
      rw [← hwa2, ← hwb2, hw]

theorem ranking_total_order_witness :
    (fullRanking wDB2 "2026-01-02" none).Perm
      ((filteredUsers wDB2 none).map (scoreUser wDB2.deposits "2026-01-02")) ∧
    (fullRanking wDB2 "2026-01-02" none).Sorted specLE ∧
    ∀ l : List Scored,
      l.Perm ((filteredUsers wDB2 none).map (scoreUser wDB2.deposits "2026-01-02")) →
      l.Sorted specLE → l = fullRanking wDB2 "2026-01-02" none :=
  ranking_total_order wDB2 "2026-01-02" none
    (by
      intro u hu
      rcases List.mem_cons.mp hu with e | e
      · rw [e]; norm_num [wU1]
      · rw [List.mem_singleton.mp e]; norm_num [wU2, wU1])
    (by decide)

/-! ### Claim C2: the side-channel lookup agrees with the main query -/

/-- Claim C2: for a participant that exists and passes the category filter
(telegram ids being unique, as the schema enforces), the currentUser lookup
returns an entry whose position is the participant's 1-based index in the
full unpaginated ordering and whose pnlPercent is the participant's computed
percent — and for every requested page and limit, any main-query entry for
the same participant carries exactly the same position and pnlPercent: the
two query paths agree on the row they share, independent of pagination. -/
theorem lookup_matches_main (db : DB) (asOf : DateStr) (cat : Option Nat)
    (page limit : Nat) (u : User)
    (hmem : u ∈ db.users) (hfilter : passesFilter cat u = true)
    (hnd : (db.users.map (fun w => w.telegramId)).Nodup) :
    ∃ e : Entry, lookupUser db asOf cat u.telegramId = some e ∧
      ∃ i : Nat,
        (fullRanking db asOf cat)[i]? = some (scoreUser db.deposits asOf u) ∧
        e.position = i + 1 ∧
        e.pnlPercent = (scoreUser db.deposits asOf u).pct.getD 0 ∧
        ∀ e2 ∈ mainEntries db asOf cat page limit,
          e2.telegramId = u.telegramId →
          e2.position = e.position ∧ e2.pnlPercent = e.pnlPercent := by
  have hufil : u ∈ filteredUsers db cat := List.mem_filter.mpr ⟨hmem, hfilter⟩
  have humem : scoreUser db.deposits asOf u ∈ fullRanking db asOf cat :=
    mem_fullRanking.mpr ⟨u, hufil, rfl⟩
  obtain ⟨j, s0, hfr, hg, ht0⟩ :=
    findRank_spec (fullRanking db asOf cat) 1 u.telegramId
      ⟨scoreUser db.deposits asOf u, humem, rfl⟩
  have hs0mem : s0 ∈ fullRanking db asOf cat := by
    obtain ⟨hlt, hget⟩ := List.getElem?_eq_some_iff.mp hg
    exact hget ▸ List.getElem_mem hlt
  obtain ⟨w, hw, hws⟩ := mem_fullRanking.mp hs0mem
  have hwu : w = u := by
    apply List.inj_on_of_nodup_map hnd (filteredUsers_subset w hw) hmem
    rw [show w.telegramId = s0.user.telegramId from by rw [← hws]; rfl]
    exact ht0
  have hs0 : s0 = scoreUser db.deposits asOf u := by rw [← hws, hwu]
  subst hs0
  refine ⟨mkEntry (1 + j) true (scoreUser db.deposits asOf u), ?_, j, hg, ?_, rfl, ?_⟩
  · unfold lookupUser
    rw [hfr]
  · show 1 + j = j + 1
    omega
  · intro e2 he2 ht2
    obtain ⟨k, s, hgk, rfl⟩ := mem_entriesFrom _ _ e2 he2
    have hgfull : (fullRanking db asOf cat)[(page - 1) * limit + k]? = some s :=
      pageRows_getElem hgk
    have hts : s.user.telegramId = u.telegramId := ht2
    have hidx : (page - 1) * limit + k = j :=
      fullRanking_tid_index_unique hnd hgfull hg (by rw [hts]; rfl)
    constructor
    · show (page - 1) * limit + 1 + k = 1 + j
      omega
    · have hss : some s = some (scoreUser db.deposits asOf u) := by
        rw [← hgfull, hidx, hg]
      have hs2 : s = scoreUser db.deposits asOf u := (Option.some.injEq _ _).mp hss
      show s.pct.getD 0 = (scoreUser db.deposits asOf u).pct.getD 0
      rw [hs2]

theorem lookup_matches_main_witness :
    ∃ e : Entry, lookupUser wDB2 "2026-01-02" none wU2.telegramId = some e ∧
      ∃ i : Nat,
        (fullRanking wDB2 "2026-01-02" none)[i]? =
          some (scoreUser wDB2.deposits "2026-01-02" wU2) ∧
        e.position = i + 1 ∧
        e.pnlPercent = (scoreUser wDB2.deposits "2026-01-02" wU2).pct.getD 0 ∧
        ∀ e2 ∈ mainEntries wDB2 "2026-01-02" none 1 1,
          e2.telegramId = wU2.telegramId →
          e2.position = e.position ∧ e2.pnlPercent = e.pnlPercent :=
  lookup_matches_main wDB2 "2026-01-02" none 1 1 wU2
    (List.mem_cons_of_mem _ (List.mem_cons_self _ _)) rfl (by decide)

end Liderboard
